import Mathlib

/-!
Verification development for the moot streaming chat pipeline.

Shallow embedding of the core server and client logic:
the chat route's agent event loop (skip rule, marker extraction,
marker stripping, full-response buffer, audio generation, SSE framing),
the session-scoped document store (add / list / move), the client
page's speech arbitration, and the client audio queue state machine.

Strings are modelled as `List Char`.  JavaScript object maps are
modelled as association lists in key-insertion order (JS objects keep
insertion order and have unique keys).  `JSON.parse` and the
text-to-speech provider are external collaborators and appear as
function parameters.
-/

namespace Moot

/-- Strings, modelled as lists of characters. -/
abbrev Str := List Char

/-- JavaScript whitespace test for the characters that occur in this
development (`String.trim`, `\s`). -/
def isWS (c : Char) : Bool :=
  c = ' ' || c = '\t' || c = '\n' || c = '\r'

/-- JavaScript `String.prototype.trim`: drop whitespace at both ends. -/
def trim (s : Str) : Str :=
  ((s.dropWhile isWS).reverse.dropWhile isWS).reverse

/-- `hasTag tag s` holds when `s` starts with the literal characters `tag`
(the anchored literal part of one of the marker regexes). -/
def hasTag : Str → Str → Bool
  | [], _ => true
  | _ :: _, [] => false
  | t :: ts, c :: cs => t = c && hasTag ts cs

/-- The literal prelude of a citation marker match,
`[CITATION:` followed by the opening brace of the JSON payload
(regex `\[CITATION:(\{[\s\S]*?\})\]`, route.ts line 284). -/
def citTag : Str :=
  ['[', 'C', 'I', 'T', 'A', 'T', 'I', 'O', 'N', ':', '\x7b']

/-- The literal prelude of a download marker,
`[DOWNLOAD_LINK:` (regex `\[DOWNLOAD_LINK:([^\]]+)\]`, route.ts line 305). -/
def dlTag : Str :=
  ['[', 'D', 'O', 'W', 'N', 'L', 'O', 'A', 'D', '_', 'L', 'I', 'N', 'K', ':']

/-- The literal prelude of a link marker,
`[LINK_PROVIDED:` (regex on route.ts line 319). -/
def lpTag : Str :=
  ['[', 'L', 'I', 'N', 'K', '_', 'P', 'R', 'O', 'V', 'I', 'D', 'E', 'D', ':']

/-- The lazy tail `[\s\S]*?\}` followed by `\]` of the citation regex:
scan to the first occurrence of the two characters brace-then-bracket,
returning the characters before it and the rest after it. -/
def findBody : Str → Option (Str × Str)
  | [] => none
  | c :: rest =>
    if c = '\x7d' then
      match rest with
      | ']' :: r2 => some ([], r2)
      | _ => (findBody rest).map fun p => (c :: p.1, p.2)
    else
      (findBody rest).map fun p => (c :: p.1, p.2)

/-- The character class `[^\]]` repeated up to a closing `]`:
characters before the first `]` and the rest after it. -/
def takeToRB : Str → Option (Str × Str)
  | [] => none
  | c :: rest =>
    if c = ']' then some ([], rest)
    else (takeToRB rest).map fun p => (c :: p.1, p.2)

/-- The character class `[^|]` repeated up to a `|` separator:
characters before the first `|` and the rest after it. -/
def takeToPipe : Str → Option (Str × Str)
  | [] => none
  | c :: rest =>
    if c = '|' then some ([], rest)
    else (takeToPipe rest).map fun p => (c :: p.1, p.2)

/-- The captured group of a citation marker: the JSON payload text
including its braces. -/
def citPayload (body : Str) : Str :=
  '\x7b' :: (body ++ ['\x7d'])

/-- A full citation marker: `[CITATION:` ++ payload ++ `]`. -/
def citMarker (body : Str) : Str :=
  citTag ++ body ++ ['\x7d', ']']

/-- The global-regex scan of `citationPattern` (route.ts lines 284-286):
collect the captured payload of each match, resuming after the match,
advancing one character when no match starts at the current position.
The first argument is the number of characters of the current match
still to be jumped over (the `lastIndex` bookkeeping of a JS global
regex), which makes the recursion structural on the string. -/
def scanCitAux : Nat → Str → List Str
  | _ + 1, [] => []
  | n + 1, _ :: cs => scanCitAux n cs
  | 0, [] => []
  | 0, c :: cs =>
    if hasTag citTag (c :: cs) then
      match findBody ((c :: cs).drop 11) with
      | some (body, _) => citPayload body :: scanCitAux (body.length + 12) cs
      | none => scanCitAux 0 cs
    else scanCitAux 0 cs

/-- All citation payloads of a tool-result string, left to right. -/
def scanCit (s : Str) : List Str := scanCitAux 0 s

/-- The global-regex scan of `downloadPattern` (route.ts lines 305-306):
collect each captured filename (one or more non-`]` characters). -/
def downloadScanAux : Nat → Str → List Str
  | _ + 1, [] => []
  | n + 1, _ :: cs => downloadScanAux n cs
  | 0, [] => []
  | 0, c :: cs =>
    if hasTag dlTag (c :: cs) then
      match takeToRB ((c :: cs).drop 15) with
      | some (name, _) =>
        if name = [] then downloadScanAux 0 cs
        else name :: downloadScanAux (name.length + 15) cs
      | none => downloadScanAux 0 cs
    else downloadScanAux 0 cs

/-- All download-marker filenames of a tool-result string. -/
def downloadScan (s : Str) : List Str := downloadScanAux 0 s

/-- The global-regex scan of `linkPattern` (route.ts lines 319-320):
collect each (title, url, description) triple; title and url are
non-empty pipe-free runs, the description is a possibly empty `]`-free
run. -/
def linkScanAux : Nat → Str → List (Str × Str × Str)
  | _ + 1, [] => []
  | n + 1, _ :: cs => linkScanAux n cs
  | 0, [] => []
  | 0, c :: cs =>
    if hasTag lpTag (c :: cs) then
      match takeToPipe ((c :: cs).drop 15) with
      | some (title, r1) =>
        if title = [] then linkScanAux 0 cs
        else
          match takeToPipe r1 with
          | some (url, r2) =>
            if url = [] then linkScanAux 0 cs
            else
              match takeToRB r2 with
              | some (desc, _) =>
                (title, url, desc) ::
                  linkScanAux (title.length + url.length + desc.length + 16) cs
              | none => linkScanAux 0 cs
          | none => linkScanAux 0 cs
      | none => linkScanAux 0 cs
    else linkScanAux 0 cs

/-- All link-marker triples of a tool-result string. -/
def linkScan (s : Str) : List (Str × Str × Str) := linkScanAux 0 s

/-- The `replace(citationPattern, '')` pass of `cleanText`
(route.ts line 340): copy characters, removing every citation match. -/
def stripCitAux : Nat → Str → Str
  | _ + 1, [] => []
  | n + 1, _ :: cs => stripCitAux n cs
  | 0, [] => []
  | 0, c :: cs =>
    if hasTag citTag (c :: cs) then
      match findBody ((c :: cs).drop 11) with
      | some (body, _) => stripCitAux (body.length + 12) cs
      | none => c :: stripCitAux 0 cs
    else c :: stripCitAux 0 cs

/-- Remove every citation marker from a string. -/
def stripCit (s : Str) : Str := stripCitAux 0 s

/-- The `replace(/\[DOWNLOAD_LINK:[^\]]+\]/g, '')` pass
(route.ts line 341). -/
def stripDLAux : Nat → Str → Str
  | _ + 1, [] => []
  | n + 1, _ :: cs => stripDLAux n cs
  | 0, [] => []
  | 0, c :: cs =>
    if hasTag dlTag (c :: cs) then
      match takeToRB ((c :: cs).drop 15) with
      | some (name, _) =>
        if name = [] then c :: stripDLAux 0 cs
        else stripDLAux (name.length + 15) cs
      | none => c :: stripDLAux 0 cs
    else c :: stripDLAux 0 cs

/-- Remove every download marker from a string. -/
def stripDL (s : Str) : Str := stripDLAux 0 s

/-- The `replace(/\[LINK_PROVIDED:[^\]]+\]/g, '')` pass
(route.ts line 342). Its pattern is flat (any non-`]` run), unlike the
three-part extraction pattern. -/
def stripLPAux : Nat → Str → Str
  | _ + 1, [] => []
  | n + 1, _ :: cs => stripLPAux n cs
  | 0, [] => []
  | 0, c :: cs =>
    if hasTag lpTag (c :: cs) then
      match takeToRB ((c :: cs).drop 15) with
      | some (name, _) =>
        if name = [] then c :: stripLPAux 0 cs
        else stripLPAux (name.length + 15) cs
      | none => c :: stripLPAux 0 cs
    else c :: stripLPAux 0 cs

/-- Remove every link marker from a string. -/
def stripLP (s : Str) : Str := stripLPAux 0 s

/-- `cleanText` of the route (lines 339-342): strip citation, download
and link markers, in that order. -/
def cleanText (s : Str) : Str := stripLP (stripDL (stripCit s))

/-! ## Agent Run Loop Driver (chat route `POST`) -/

/-- The JSON object decoded from a citation marker payload
(`JSON.parse(jsonStr)` on route.ts line 289); the route reads the
fields `title`, `url`, `date`, `snippet`. -/
structure CitJson where
  title : Option Str
  url : Option Str
  date : Option Str
  snippet : Option Str
deriving DecidableEq, Repr

/-- The payload of a `citation` wire event.  `source` comes from a
citation marker, `download` from a download marker (carrying the raw
filename), `link` from a link marker (carrying the raw triple); the
route derives the displayed title/url fields from these data. -/
inductive CitEvent where
  | source (c : CitJson)
  | download (filename : Str)
  | link (title url desc : Str)
deriving DecidableEq, Repr

/-- One wire event of the SSE stream (the `sendEvent` payloads of the
route). -/
inductive StreamEvent where
  | session (sid : Str)
  | toolCall (name : Str)
  | citation (c : CitEvent)
  | content (text : Str)
  | audio (data : Str)
  | done
  | error (msg : Str)
deriving DecidableEq, Repr

/-- `done` and `error` are the terminal wire events. -/
def StreamEvent.isTerminal : StreamEvent → Bool
  | .done => true
  | .error _ => true
  | _ => false

/-- One part of an agent event.  `text` is the text delta (a part with
an empty string is falsy for the route's `if (part.text)` test),
`functionCall` carries the tool name, `functionResponse` carries
`String(part.functionResponse.response?.result || '')`. -/
structure Part where
  text : Option Str := none
  functionCall : Option Str := none
  functionResponse : Option Str := none
deriving DecidableEq, Repr

/-- One event yielded by the agent framework's run loop.  `content` is
`some parts` when the event has a content object with a parts array;
`pflag` is the event's `partial` field (`some true` / `some false` /
absent). -/
structure AgentEvent where
  content : Option (List Part) := none
  pflag : Option Bool := none
deriving DecidableEq, Repr

/-- `event.content?.parts?.some(p => p.functionResponse)`
(route.ts line 255). -/
def hasFunctionResponse (e : AgentEvent) : Bool :=
  match e.content with
  | some parts => parts.any fun p => p.functionResponse.isSome
  | none => false

/-- The skip test of route.ts line 259, with `bufLen` the current
`fullTextResponse.length`:
`!hasFunctionResponse && (event.partial === false ||
(event.content && !event.partial && fullTextResponse.length > 0))`. -/
def skipCond (e : AgentEvent) (bufLen : Nat) : Bool :=
  !hasFunctionResponse e &&
    (e.pflag == some false ||
      (e.content.isSome && !(e.pflag == some true) && decide (0 < bufLen)))

/-- The events emitted for one `functionResponse` part
(route.ts lines 279-331): one `citation` event per citation payload
whose JSON parses (`parse` models `JSON.parse`, an external builtin;
a failing parse is caught and skipped), then one per download marker,
then one per link marker. -/
def frEvents (parse : Str → Option CitJson) (r : Str) : List StreamEvent :=
  ((scanCit r).filterMap parse).map (fun c => .citation (.source c))
    ++ (downloadScan r).map (fun n => .citation (.download n))
    ++ (linkScan r).map (fun t => .citation (.link t.1 t.2.1 t.2.2))

/-- The body of the per-part loop (route.ts lines 266-352), threading
the `fullTextResponse` buffer and the list of emitted events:
a `tool_call` event for a function call, the marker events for a
function response, and for a non-empty text part whose cleaned text is
non-blank, a `content` event with the cleaned text while the raw
`part.text` is appended to the buffer (line 345). -/
def processPart (parse : Str → Option CitJson) (acc : Str × List StreamEvent)
    (p : Part) : Str × List StreamEvent :=
  let acc1 := match p.functionCall with
    | some n => (acc.1, acc.2 ++ [.toolCall n])
    | none => acc
  let acc2 := match p.functionResponse with
    | some r => (acc1.1, acc1.2 ++ frEvents parse r)
    | none => acc1
  match p.text with
  | some t =>
    if t = [] then acc2
    else
      let ct := cleanText t
      if trim ct = [] then acc2
      else (acc2.1 ++ t, acc2.2 ++ [.content ct])
  | none => acc2

/-- The body of the event loop (route.ts lines 250-361): skip per
`skipCond`, otherwise process each part in order. -/
def processEvent (parse : Str → Option CitJson) (acc : Str × List StreamEvent)
    (e : AgentEvent) : Str × List StreamEvent :=
  if skipCond e acc.1.length then acc
  else
    match e.content with
    | some parts => parts.foldl (processPart parse) acc
    | none => acc

/-- One pass over the agent's event sequence, starting from an empty
buffer, returning the final `fullTextResponse` and the emitted events. -/
def processEvents (parse : Str → Option CitJson) (events : List AgentEvent) :
    Str × List StreamEvent :=
  events.foldl (processEvent parse) ([], [])

/-- `fullTextResponse.split(/(?<=[.!?])\s+/)` (route.ts line 365):
a sentence boundary is a maximal whitespace run preceded by `.`, `!`
or `?`. -/
def isSentEnd (c : Char) : Bool :=
  c = '.' || c = '!' || c = '?'

/-- Whether the piece collected so far ends in a sentence terminator. -/
def lastIsSentEnd (cur : Str) : Bool :=
  match cur.getLast? with
  | some c => isSentEnd c
  | none => false

/-- Sentence splitter: `inSep` records that we are consuming the
whitespace run of a separator match. -/
def splitSentencesAux : Bool → Str → Str → List Str
  | _, cur, [] => [cur]
  | inSep, cur, c :: cs =>
    if inSep && isWS c then splitSentencesAux true cur cs
    else if !inSep && isWS c && lastIsSentEnd cur then
      cur :: splitSentencesAux true [] cs
    else splitSentencesAux false (cur ++ [c]) cs

/-- The sentence list a full response is synthesized from. -/
def splitSentences (s : Str) : List Str := splitSentencesAux false [] s

/-- The audio-generation loop (route.ts lines 365-378): for each
sentence with non-blank trim, clean it with `stripMarkdown` and, if
that is non-empty, ask the speech provider; a `null` result (provider
absent or failed) yields no event.  `stripMD` models
`voice-service.stripMarkdown` and `tts` models `generateSpeech`, the
external speech collaborator. -/
def audioEvents (stripMD : Str → Str) (tts : Str → Option Str) (buf : Str) :
    List StreamEvent :=
  (splitSentences buf).foldl
    (fun acc sentence =>
      if trim sentence = [] then acc
      else
        let cleanSentence := stripMD sentence
        if cleanSentence = [] then acc
        else
          match tts cleanSentence with
          | some audio => acc ++ [.audio audio]
          | none => acc)
    []

/-- All events the route's `try` block sends for one turn, in order
(route.ts lines 179-378): the `session` event, the event-loop events,
then - when a voice id is selected and the accumulated response is
non-blank - the audio events. -/
def turnEvents (parse : Str → Option CitJson) (stripMD : Str → Str)
    (tts : Str → Option Str) (sid : Str) (voice : Option Str)
    (events : List AgentEvent) : List StreamEvent :=
  let r := processEvents parse events
  let audioEvs := match voice with
    | some v => if v ≠ [] ∧ trim r.1 ≠ [] then audioEvents stripMD tts r.1 else []
    | none => []
  .session sid :: (r.2 ++ audioEvs)

/-- The full `POST` handler stream (route.ts lines 167-392): on
success the turn's events followed by `done`; an uncaught exception
thrown after `k` events have been sent truncates the turn to those `k`
events and appends a single `error` event (the `catch` block); the
`finally` block always closes the controller (the returned `Bool`). -/
def postWritten (parse : Str → Option CitJson) (stripMD : Str → Str)
    (tts : Str → Option Str) (sid : Str) (voice : Option Str)
    (events : List AgentEvent) (crash : Option (Nat × Str)) :
    List StreamEvent × Bool :=
  match crash with
  | none => (turnEvents parse stripMD tts sid voice events ++ [.done], true)
  | some (k, msg) =>
    ((turnEvents parse stripMD tts sid voice events).take k ++ [.error msg], true)

/-! ## Document Scope Store (document-reader / move-documents route)

JS objects are modelled as association lists in key-insertion order;
JS object keys are unique, so `delete obj[k]` is removal of the one
entry with key `k`.  The durable / file backend round-trip
(`loadStoreAsync` / `saveStoreAsync`) is modelled by threading the
store value through each operation. -/

/-- One stored document: `\x7b name, content, type \x7d`. -/
structure DocumentItem where
  name : Str
  content : Str
  ty : Str
deriving DecidableEq, Repr

/-- The per-session map `docId -> DocumentItem`, in insertion order. -/
abbrev SessionDocs := List (Str × DocumentItem)

/-- The whole store: `sessionId -> docId -> DocumentItem`. -/
abbrev DocumentStore := List (Str × SessionDocs)

/-- JS property read `obj[k]` on an object map. -/
def lookupKey {A : Type} (l : List (Str × A)) (k : Str) : Option A :=
  match l with
  | [] => none
  | (k', v) :: rest => if k' = k then some v else lookupKey rest k

/-- JS property write `obj[k] = v`: update in place, or append a new
key at the end (JS objects keep key-insertion order). -/
def setKey {A : Type} : List (Str × A) → Str → A → List (Str × A)
  | [], k, v => [(k, v)]
  | (k', v') :: rest, k, v =>
    if k' = k then (k, v) :: rest else (k', v') :: setKey rest k v

/-- JS property delete `delete obj[k]`. -/
def eraseKey {A : Type} (l : List (Str × A)) (k : Str) : List (Str × A) :=
  l.filter fun p => p.1 ≠ k

/-- `addDocument` (document-reader.ts lines 182-190): create the
session's map if missing, then write the document under its id. -/
def addDocument (store : DocumentStore) (sessionId id name content ty : Str) :
    DocumentStore :=
  let sess := (lookupKey store sessionId).getD []
  setKey store sessionId (setKey sess id ⟨name, content, ty⟩)

/-- JS truthiness of an optional string: the empty string is falsy. -/
def jsTruthyStr (b : Option Str) : Option Str :=
  match b with
  | some s => if s = [] then none else some s
  | none => none

/-- JS `a || b` on optional strings, both falsy cases collapsed to
`none`. -/
def jsOrStr (a b : Option Str) : Option Str :=
  match a with
  | some s => if s = [] then jsTruthyStr b else some s
  | none => jsTruthyStr b

/-- `getDocumentNames` (document-reader.ts lines 195-202): resolve the
session id as `sessionId || currentSessionId`, return `[]` when both
are falsy, else the names of the session's documents in insertion
order (`Object.values(...).map(d => d.name)`). -/
def getDocumentNames (currentSessionId : Option Str) (store : DocumentStore)
    (sessionId : Option Str) : List Str :=
  match jsOrStr sessionId currentSessionId with
  | none => []
  | some sid => ((lookupKey store sid).getD []).map fun d => d.2.name

/-- The body of the move loop (move-documents/route.ts lines 69-76).
When `from_session === to_session` and the source session exists,
`sourceSession` and `store[to_session]` alias the same JS object
(`aliased = true`): the write `store[to_session][docId] =
sourceSession[docId]` and the `delete sourceSession[docId]` then hit
one object, so the document is net-deleted.  Without aliasing the
write and the delete hit the two distinct maps. -/
def moveLoop (aliased : Bool) (src dst : SessionDocs) (ids : List Str) :
    SessionDocs × SessionDocs × Nat :=
  match ids with
  | [] => (src, dst, 0)
  | id :: rest =>
    if aliased then
      match lookupKey src id with
      | some it =>
        let src' := eraseKey (setKey src id it) id
        let r := moveLoop aliased src' src' rest
        (r.1, r.2.1, r.2.2 + 1)
      | none => moveLoop aliased src dst rest
    else
      match lookupKey src id with
      | some it =>
        let r := moveLoop aliased (eraseKey src id) (setKey dst id it) rest
        (r.1, r.2.1, r.2.2 + 1)
      | none => moveLoop aliased src dst rest

/-- The move-documents `POST` (move-documents/route.ts lines 45-99).
Returns the new store and `some (success, moved_count)`, or `none` for
the 400 response when either session id is falsy.  `document_ids`
omitted moves every key of the source session; the source session's
entry is written back and deleted when empty. -/
def moveDocumentsPost (store : DocumentStore) (fromSession toSession : Str)
    (documentIds : Option (List Str)) : DocumentStore × Option (Bool × Nat) :=
  if fromSession = [] ∨ toSession = [] then (store, none)
  else
    let srcExists := (lookupKey store fromSession).isSome
    let src0 := (lookupKey store fromSession).getD []
    -- if (!store[to_session]) store[to_session] = a fresh empty object;
    -- when from_session === to_session with a missing source session the
    -- fresh object is distinct from sourceSession and later overwritten
    -- by the store[from_session] = sourceSession write, so it needs no
    -- separate representation here.
    let aliased : Bool := decide (fromSession = toSession) && srcExists
    let dst0 := if aliased then src0 else (lookupKey store toSession).getD []
    let ids := documentIds.getD (src0.map fun p => p.1)
    let r := moveLoop aliased src0 dst0 ids
    let store1 := if aliased then setKey store fromSession r.1
      else setKey (setKey store toSession r.2.1) fromSession r.1
    let store2 := if r.1 = [] then eraseKey store1 fromSession else store1
    (store2, some (true, r.2.2))

/-! ## Mic/Speech arbitration (page.tsx) -/

/-- `inputMode` of the page: text vs voice. -/
inductive InputMode where
  | text
  | voice
deriving DecidableEq, Repr

/-- `sessionState` of the page. -/
inductive SessionState where
  | idle
  | active
  | paused
deriving DecidableEq, Repr

/-- The page state read by the speech-acceptance logic. -/
structure PageState where
  isAiSpeaking : Bool
  isAudioPlaying : Bool
  inputMode : InputMode
  sessionState : SessionState
deriving DecidableEq, Repr

/-- `shouldAcceptSpeechRef.current`, maintained by the effect on
page.tsx lines 225-228: `!isAiSpeaking && !isAudioPlaying`. -/
def shouldAcceptSpeech (s : PageState) : Bool :=
  !s.isAiSpeaking && !s.isAudioPlaying

/-- `handleFinalSpeech` (page.tsx lines 231-243): returns the
transcript submitted as a user turn, or `none` when the transcript is
discarded (rejected while the AI is speaking, or blank).  A rejected
transcript is only dropped - the callback keeps no queue, which the
`Option` result makes structural. -/
def handleFinalSpeech (s : PageState) (transcript : Str) : Option Str :=
  if !shouldAcceptSpeech s then none
  else if trim transcript ≠ [] then some transcript
  else none

/-! ## Client Audio Queue (useAudioQueue.ts) -/

/-- The refs and state of `useAudioQueue`: the decoded-buffer queue,
`isPlaying`, `isProcessingRef`, `isReceivingRef`, whether the
grace timer is armed (`playbackEndTimeoutRef`), and the in-flight
source buffer (`sourceRef`). -/
structure AQState where
  queue : List Str
  isPlaying : Bool
  isProcessing : Bool
  receiving : Bool
  timerPending : Bool
  current : Option Str
deriving DecidableEq, Repr

/-- The externally triggered events of the audio queue: a chunk
arriving (decode succeeding or failing), the current source's
`onended` callback, the 500ms grace timer firing, and the two public
calls. -/
inductive AQAct where
  | enqueue (chunk : Str)
  | decodeFail (chunk : Str)
  | sourceEnded
  | timerFire
  | markStreamComplete
  | stop
deriving DecidableEq, Repr

/-- `playNext` (useAudioQueue.ts lines 26-72): on an empty queue,
clear `isProcessing` and (re-)arm the 500ms grace timer; otherwise
shift the head buffer and start it. -/
def playNext (s : AQState) : AQState :=
  match s.queue with
  | [] => { s with isProcessing := false, timerPending := true }
  | b :: rest =>
    { s with isProcessing := true, isPlaying := true, queue := rest,
             current := some b }

/-- One transition of the audio queue (useAudioQueue.ts):
`addToQueue` sets `receiving`, cancels the grace timer, sets
`isPlaying`, pushes the decoded chunk and starts playback when idle;
a decode failure does the same except the push and start; `onended`
clears the source and plays the next buffer; the grace timer flips
`isPlaying` off only when the queue is empty and `receiving` is false,
and resumes playback when chunks arrived during the grace period;
`markStreamComplete` only clears `receiving`; `stop` hard-resets. -/
def aqStep (s : AQState) : AQAct → AQState
  | .enqueue c =>
    let s1 := { s with receiving := true, timerPending := false,
                       isPlaying := true, queue := s.queue ++ [c] }
    if s1.isProcessing then s1 else playNext s1
  | .decodeFail _ =>
    { s with receiving := true, timerPending := false, isPlaying := true }
  | .sourceEnded =>
    if s.current.isSome then playNext { s with current := none } else s
  | .timerFire =>
    if s.timerPending then
      let s1 := { s with timerPending := false }
      if s1.queue = [] && !s1.receiving then { s1 with isPlaying := false }
      else if s1.queue ≠ [] then playNext s1
      else s1
    else s
  | .markStreamComplete => { s with receiving := false }
  | .stop =>
    { s with queue := [], isPlaying := false, isProcessing := false,
             receiving := false, timerPending := false, current := none }

/-! ## Specification-side definitions and concrete fixtures -/

/-- The spec's skip rule, for comparison with the code's `skipCond`:
an event is skipped precisely when it is a non-partial final message
(its streaming flag is not `true`), some partial content has already
been streamed for the turn, and it carries no tool response. -/
def specSkipRule (e : AgentEvent) (bufLen : Nat) : Prop :=
  hasFunctionResponse e = false ∧ e.pflag ≠ some true ∧ 0 < bufLen

/-- A tool-result string made of `N` citation markers interleaved with
free text: the leading gap, then for each list entry a marker built
from the payload body followed by the next gap. -/
def citText (g0 : Str) (ps : List (Str × Str)) : Str :=
  match ps with
  | [] => g0
  | p :: rest => g0 ++ citMarker p.1 ++ citText p.2 rest

/-- A `JSON.parse` model that rejects every payload (the driver claims
below hold for any parser; this one closes concrete statements that do
not involve citations). -/
def noParse : Str → Option CitJson := fun _ => none

/-- A `JSON.parse` model that accepts every payload, recording it as
the title. -/
def titleParse : Str → Option CitJson :=
  fun s => some ⟨some s, none, none, none⟩

/-- A `JSON.parse` model that rejects exactly the payload with body
`b` and accepts everything else. -/
def rejectBody (b : Str) : Str → Option CitJson :=
  fun s => if s = citPayload b then none else some ⟨some s, none, none, none⟩

/-- Fixture: the agent event `partial "Hello"`. -/
def evHello : AgentEvent :=
  { content := some [{ text := some ['H', 'e', 'l', 'l', 'o'] }],
    pflag := some true }

/-- Fixture: the agent event `partial " world"`. -/
def evWorld : AgentEvent :=
  { content := some [{ text := some [' ', 'w', 'o', 'r', 'l', 'd'] }],
    pflag := some true }

/-- Fixture: the final complete `"Hello world"` event, no tool parts. -/
def evFinal : AgentEvent :=
  { content := some [{ text := some ['H', 'e', 'l', 'l', 'o', ' ',
      'w', 'o', 'r', 'l', 'd'] }],
    pflag := some false }

/-- Fixture: a partial text event whose text carries a download
marker: `"Hi [DOWNLOAD_LINK:f]"`. -/
def evMarkerText : AgentEvent :=
  { content := some [{ text := some (['H', 'i', ' '] ++ dlTag ++ ['f', ']']) }],
    pflag := some true }

/-- Fixture: an event carrying a tool response. -/
def evToolResp : AgentEvent :=
  { content := some [{ functionResponse := some ['o', 'k'] }],
    pflag := some false }

/-- Fixture: a one-session one-document store. -/
def storeS1 : DocumentStore :=
  [(['s'], [(['d'], ⟨['n'], ['c'], ['t']⟩)])]

/-- Well-formedness of the interleaving data: each payload body is
brace-free and bracket-free, each gap of free text is bracket-free. -/
def WFCit (g0 : Str) (ps : List (Str × Str)) : Prop :=
  '[' ∉ g0 ∧ ∀ p ∈ ps, '\x7d' ∉ p.1 ∧ '[' ∉ p.1 ∧ '[' ∉ p.2

/-! ## Lemmas: marker codec -/

theorem hasTag_append (tag rest : Str) : hasTag tag (tag ++ rest) = true := by
  induction tag with
  | nil => rfl
  | cons t ts ih => simp [hasTag, ih]

theorem scanCitAux_skip (xs t : Str) :
    scanCitAux xs.length (xs ++ t) = scanCitAux 0 t := by
  induction xs with
  | nil => rfl
  | cons x xs ih => simpa [scanCitAux] using ih

theorem stripCitAux_skip (xs t : Str) :
    stripCitAux xs.length (xs ++ t) = stripCitAux 0 t := by
  induction xs with
  | nil => rfl
  | cons x xs ih => simpa [stripCitAux] using ih

theorem downloadScanAux_skip (xs t : Str) :
    downloadScanAux xs.length (xs ++ t) = downloadScanAux 0 t := by
  induction xs with
  | nil => rfl
  | cons x xs ih => simpa [downloadScanAux] using ih

theorem linkScanAux_skip (xs t : Str) :
    linkScanAux xs.length (xs ++ t) = linkScanAux 0 t := by
  induction xs with
  | nil => rfl
  | cons x xs ih => simpa [linkScanAux] using ih

theorem hasTag_bracket_head (ts : Str) {c : Char} (cs : Str) (h : c ≠ '[') :
    hasTag ('[' :: ts) (c :: cs) = false := by
  simp [hasTag, Ne.symm h]

theorem scanCitAux_gap {g : Str} (t : Str) (h : '[' ∉ g) :
    scanCitAux 0 (g ++ t) = scanCitAux 0 t := by
  induction g with
  | nil => rfl
  | cons c g ih =>
    have hc : c ≠ '[' := fun e => h (e ▸ List.mem_cons_self _ _)
    have hnt : hasTag citTag (c :: (g ++ t)) = false := by
      simpa [citTag] using hasTag_bracket_head _ (g ++ t) hc
    have ih' := ih fun hm => h (List.mem_cons_of_mem _ hm)
    simpa [scanCitAux, hnt] using ih'

theorem stripCitAux_gap {g : Str} (t : Str) (h : '[' ∉ g) :
    stripCitAux 0 (g ++ t) = g ++ stripCitAux 0 t := by
  induction g with
  | nil => rfl
  | cons c g ih =>
    have hc : c ≠ '[' := fun e => h (e ▸ List.mem_cons_self _ _)
    have hnt : hasTag citTag (c :: (g ++ t)) = false := by
      simpa [citTag] using hasTag_bracket_head _ (g ++ t) hc
    have ih' := ih fun hm => h (List.mem_cons_of_mem _ hm)
    simpa [stripCitAux, hnt] using ih'

theorem downloadScanAux_gap {g : Str} (t : Str) (h : '[' ∉ g) :
    downloadScanAux 0 (g ++ t) = downloadScanAux 0 t := by
  induction g with
  | nil => rfl
  | cons c g ih =>
    have hc : c ≠ '[' := fun e => h (e ▸ List.mem_cons_self _ _)
    have hnt : hasTag dlTag (c :: (g ++ t)) = false := by
      simpa [dlTag] using hasTag_bracket_head _ (g ++ t) hc
    have ih' := ih fun hm => h (List.mem_cons_of_mem _ hm)
    simpa [downloadScanAux, hnt] using ih'

theorem linkScanAux_gap {g : Str} (t : Str) (h : '[' ∉ g) :
    linkScanAux 0 (g ++ t) = linkScanAux 0 t := by
  induction g with
  | nil => rfl
  | cons c g ih =>
    have hc : c ≠ '[' := fun e => h (e ▸ List.mem_cons_self _ _)
    have hnt : hasTag lpTag (c :: (g ++ t)) = false := by
      simpa [lpTag] using hasTag_bracket_head _ (g ++ t) hc
    have ih' := ih fun hm => h (List.mem_cons_of_mem _ hm)
    simpa [linkScanAux, hnt] using ih'

theorem stripDLAux_gap {g : Str} (t : Str) (h : '[' ∉ g) :
    stripDLAux 0 (g ++ t) = g ++ stripDLAux 0 t := by
  induction g with
  | nil => rfl
  | cons c g ih =>
    have hc : c ≠ '[' := fun e => h (e ▸ List.mem_cons_self _ _)
    have hnt : hasTag dlTag (c :: (g ++ t)) = false := by
      simpa [dlTag] using hasTag_bracket_head _ (g ++ t) hc
    have ih' := ih fun hm => h (List.mem_cons_of_mem _ hm)
    simpa [stripDLAux, hnt] using ih'

theorem stripLPAux_gap {g : Str} (t : Str) (h : '[' ∉ g) :
    stripLPAux 0 (g ++ t) = g ++ stripLPAux 0 t := by
  induction g with
  | nil => rfl
  | cons c g ih =>
    have hc : c ≠ '[' := fun e => h (e ▸ List.mem_cons_self _ _)
    have hnt : hasTag lpTag (c :: (g ++ t)) = false := by
      simpa [lpTag] using hasTag_bracket_head _ (g ++ t) hc
    have ih' := ih fun hm => h (List.mem_cons_of_mem _ hm)
    simpa [stripLPAux, hnt] using ih'

theorem stripDL_of_no_bracket {s : Str} (h : '[' ∉ s) : stripDL s = s := by
  have := stripDLAux_gap (g := s) [] h
  simpa [stripDL, show stripDLAux 0 ([] : Str) = [] from rfl] using this

theorem stripLP_of_no_bracket {s : Str} (h : '[' ∉ s) : stripLP s = s := by
  have := stripLPAux_gap (g := s) [] h
  simpa [stripLP, show stripLPAux 0 ([] : Str) = [] from rfl] using this

theorem scanCit_of_no_bracket {s : Str} (h : '[' ∉ s) : scanCit s = [] := by
  have := scanCitAux_gap (g := s) [] h
  simpa [scanCit, show scanCitAux 0 ([] : Str) = [] from rfl] using this

theorem findBody_spec (b t : Str) (h : '\x7d' ∉ b) :
    findBody (b ++ '\x7d' :: ']' :: t) = some (b, t) := by
  induction b with
  | nil => simp [findBody]
  | cons c b ih =>
    have hc : c ≠ '\x7d' := fun e => h (e ▸ List.mem_cons_self _ _)
    have ih' := ih fun hm => h (List.mem_cons_of_mem _ hm)
    simp [findBody, hc, ih']

theorem scanCitAux_not_tag {c : Char} (cs : Str)
    (hnt : hasTag citTag (c :: cs) = false) :
    scanCitAux 0 (c :: cs) = scanCitAux 0 cs := by
  simp [scanCitAux, hnt]

theorem stripCitAux_not_tag {c : Char} (cs : Str)
    (hnt : hasTag citTag (c :: cs) = false) :
    stripCitAux 0 (c :: cs) = c :: stripCitAux 0 cs := by
  simp [stripCitAux, hnt]

theorem downloadScanAux_not_tag {c : Char} (cs : Str)
    (hnt : hasTag dlTag (c :: cs) = false) :
    downloadScanAux 0 (c :: cs) = downloadScanAux 0 cs := by
  simp [downloadScanAux, hnt]

theorem linkScanAux_not_tag {c : Char} (cs : Str)
    (hnt : hasTag lpTag (c :: cs) = false) :
    linkScanAux 0 (c :: cs) = linkScanAux 0 cs := by
  simp [linkScanAux, hnt]

theorem scanCitAux_marker (b t : Str) (h : '\x7d' ∉ b) :
    scanCitAux 0 (citMarker b ++ t) = citPayload b :: scanCitAux 0 t := by
  have h1 : citMarker b ++ t = citTag ++ (b ++ '\x7d' :: ']' :: t) := by
    simp [citMarker]
  have htag : hasTag citTag (citMarker b ++ t) = true := by
    rw [h1]; exact hasTag_append _ _
  have hdrop : (citMarker b ++ t).drop 11 = b ++ '\x7d' :: ']' :: t := by
    rw [h1]; simp [citTag]
  rcases hshape : citMarker b ++ t with _ | ⟨c, cs⟩
  · exact absurd hshape (by simp [citMarker, citTag])
  · rw [hshape] at htag hdrop
    have hcs : cs = (citTag.tail ++ (b ++ ['\x7d', ']'])) ++ t := by
      have h2 : citMarker b ++ t =
          '[' :: ((citTag.tail ++ (b ++ ['\x7d', ']'])) ++ t) := by
        simp [citMarker, citTag]
      rw [hshape] at h2
      exact (List.cons.injEq _ _ _ _ ▸ h2).2
    have hskip : scanCitAux (b.length + 12) cs = scanCitAux 0 t := by
      rw [hcs]
      have hl : (citTag.tail ++ (b ++ ['\x7d', ']'])).length = b.length + 12 := by
        simp [citTag]
      rw [← hl]
      exact scanCitAux_skip _ t
    simp only [scanCitAux, htag, if_true, hdrop, findBody_spec b t h]
    exact congrArg _ hskip

theorem stripCitAux_marker (b t : Str) (h : '\x7d' ∉ b) :
    stripCitAux 0 (citMarker b ++ t) = stripCitAux 0 t := by
  have h1 : citMarker b ++ t = citTag ++ (b ++ '\x7d' :: ']' :: t) := by
    simp [citMarker]
  have htag : hasTag citTag (citMarker b ++ t) = true := by
    rw [h1]; exact hasTag_append _ _
  have hdrop : (citMarker b ++ t).drop 11 = b ++ '\x7d' :: ']' :: t := by
    rw [h1]; simp [citTag]
  rcases hshape : citMarker b ++ t with _ | ⟨c, cs⟩
  · exact absurd hshape (by simp [citMarker, citTag])
  · rw [hshape] at htag hdrop
    have hcs : cs = (citTag.tail ++ (b ++ ['\x7d', ']'])) ++ t := by
      have h2 : citMarker b ++ t =
          '[' :: ((citTag.tail ++ (b ++ ['\x7d', ']'])) ++ t) := by
        simp [citMarker, citTag]
      rw [hshape] at h2
      exact (List.cons.injEq _ _ _ _ ▸ h2).2
    have hskip : stripCitAux (b.length + 12) cs = stripCitAux 0 t := by
      rw [hcs]
      have hl : (citTag.tail ++ (b ++ ['\x7d', ']'])).length = b.length + 12 := by
        simp [citTag]
      rw [← hl]
      exact stripCitAux_skip _ t
    simp only [stripCitAux, htag, if_true, hdrop, findBody_spec b t h]
    exact hskip

theorem downloadScanAux_citMarker (b t : Str) (hb : '[' ∉ b) :
    downloadScanAux 0 (citMarker b ++ t) = downloadScanAux 0 t := by
  have h1 : citMarker b ++ t =
      '[' :: ((citTag.tail ++ (b ++ ['\x7d', ']'])) ++ t) := by
    simp [citMarker, citTag]
  have hgap : '[' ∉ citTag.tail ++ (b ++ ['\x7d', ']']) := by
    intro hm
    rcases List.mem_append.1 hm with hm | hm
    · revert hm; decide
    · rcases List.mem_append.1 hm with hm | hm
      · exact hb hm
      · revert hm; decide
  have hnt : hasTag dlTag
      ('[' :: ((citTag.tail ++ (b ++ ['\x7d', ']'])) ++ t)) = false := by
    have hDC : ('D' : Char) ≠ 'C' := by decide
    simp [dlTag, citTag, hasTag, hDC]
  rw [h1, downloadScanAux_not_tag _ hnt]
  exact downloadScanAux_gap t hgap

theorem linkScanAux_citMarker (b t : Str) (hb : '[' ∉ b) :
    linkScanAux 0 (citMarker b ++ t) = linkScanAux 0 t := by
  have h1 : citMarker b ++ t =
      '[' :: ((citTag.tail ++ (b ++ ['\x7d', ']'])) ++ t) := by
    simp [citMarker, citTag]
  have hgap : '[' ∉ citTag.tail ++ (b ++ ['\x7d', ']']) := by
    intro hm
    rcases List.mem_append.1 hm with hm | hm
    · revert hm; decide
    · rcases List.mem_append.1 hm with hm | hm
      · exact hb hm
      · revert hm; decide
  have hnt : hasTag lpTag
      ('[' :: ((citTag.tail ++ (b ++ ['\x7d', ']'])) ++ t)) = false := by
    have hLC : ('L' : Char) ≠ 'C' := by decide
    simp [lpTag, citTag, hasTag, hLC]
  rw [h1, linkScanAux_not_tag _ hnt]
  exact linkScanAux_gap t hgap

/-- `stripCit` is the identity on bracket-free text. -/
theorem stripCit_of_no_bracket {s : Str} (h : '[' ∉ s) : stripCit s = s := by
  have := stripCitAux_gap (g := s) [] h
  simpa [stripCit, show stripCitAux 0 ([] : Str) = [] from rfl] using this

theorem scanCit_citText (g0 : Str) (ps : List (Str × Str))
    (h : WFCit g0 ps) :
    scanCit (citText g0 ps) = ps.map fun p => citPayload p.1 := by
  obtain ⟨hg, hps⟩ := h
  induction ps generalizing g0 with
  | nil => simpa [citText] using scanCit_of_no_bracket hg
  | cons p rest ih =>
    obtain ⟨hb, _, hgp⟩ := hps p (List.mem_cons_self _ _)
    have hrest := fun q hq => hps q (List.mem_cons_of_mem _ hq)
    show scanCitAux 0 (g0 ++ citMarker p.1 ++ citText p.2 rest) = _
    rw [List.append_assoc, scanCitAux_gap _ hg, scanCitAux_marker _ _ hb]
    have := ih p.2 hgp hrest
    rw [show scanCitAux 0 (citText p.2 rest) = scanCit (citText p.2 rest)
      from rfl, this]
    rfl

theorem stripCit_citText (g0 : Str) (ps : List (Str × Str))
    (h : WFCit g0 ps) :
    stripCit (citText g0 ps) = g0 ++ (ps.map fun p => p.2).flatten := by
  obtain ⟨hg, hps⟩ := h
  induction ps generalizing g0 with
  | nil => simpa [citText] using stripCit_of_no_bracket hg
  | cons p rest ih =>
    obtain ⟨hb, _, hgp⟩ := hps p (List.mem_cons_self _ _)
    have hrest := fun q hq => hps q (List.mem_cons_of_mem _ hq)
    show stripCitAux 0 (g0 ++ citMarker p.1 ++ citText p.2 rest) = _
    rw [List.append_assoc, stripCitAux_gap _ hg, stripCitAux_marker _ _ hb]
    have := ih p.2 hgp hrest
    rw [show stripCitAux 0 (citText p.2 rest) = stripCit (citText p.2 rest)
      from rfl, this]
    simp

theorem downloadScan_citText (g0 : Str) (ps : List (Str × Str))
    (h : WFCit g0 ps) :
    downloadScan (citText g0 ps) = [] := by
  obtain ⟨hg, hps⟩ := h
  induction ps generalizing g0 with
  | nil =>
    have := downloadScanAux_gap (g := g0) [] hg
    simpa [citText, downloadScan,
      show downloadScanAux 0 ([] : Str) = [] from rfl] using this
  | cons p rest ih =>
    obtain ⟨_, hbb, hgp⟩ := hps p (List.mem_cons_self _ _)
    have hrest := fun q hq => hps q (List.mem_cons_of_mem _ hq)
    show downloadScanAux 0 (g0 ++ citMarker p.1 ++ citText p.2 rest) = _
    rw [List.append_assoc, downloadScanAux_gap _ hg,
      downloadScanAux_citMarker _ _ hbb]
    exact ih p.2 hgp hrest

theorem linkScan_citText (g0 : Str) (ps : List (Str × Str))
    (h : WFCit g0 ps) :
    linkScan (citText g0 ps) = [] := by
  obtain ⟨hg, hps⟩ := h
  induction ps generalizing g0 with
  | nil =>
    have := linkScanAux_gap (g := g0) [] hg
    simpa [citText, linkScan,
      show linkScanAux 0 ([] : Str) = [] from rfl] using this
  | cons p rest ih =>
    obtain ⟨_, hbb, hgp⟩ := hps p (List.mem_cons_self _ _)
    have hrest := fun q hq => hps q (List.mem_cons_of_mem _ hq)
    show linkScanAux 0 (g0 ++ citMarker p.1 ++ citText p.2 rest) = _
    rw [List.append_assoc, linkScanAux_gap _ hg, linkScanAux_citMarker _ _ hbb]
    exact ih p.2 hgp hrest

theorem no_bracket_citText_gaps (g0 : Str) (ps : List (Str × Str))
    (h : WFCit g0 ps) :
    '[' ∉ g0 ++ (ps.map fun p => p.2).flatten := by
  obtain ⟨hg, hps⟩ := h
  intro hm
  rcases List.mem_append.1 hm with hm | hm
  · exact hg hm
  · obtain ⟨l, hl, hml⟩ := List.mem_flatten.1 hm
    obtain ⟨p, hp, rfl⟩ := List.mem_map.1 hl
    exact (hps p hp).2.2 hml

theorem cleanText_citText (g0 : Str) (ps : List (Str × Str))
    (h : WFCit g0 ps) :
    cleanText (citText g0 ps) = g0 ++ (ps.map fun p => p.2).flatten := by
  have hnb := no_bracket_citText_gaps g0 ps h
  unfold cleanText
  rw [stripCit_citText g0 ps h, stripDL_of_no_bracket hnb,
    stripLP_of_no_bracket hnb]

theorem filterMap_parse_all (parse : Str → Option CitJson)
    (ps : List (Str × Str × CitJson))
    (hparse : ∀ x ∈ ps, parse (citPayload x.1) = some x.2.2) :
    (ps.map fun x => citPayload x.1).filterMap parse =
      ps.map fun x => x.2.2 := by
  induction ps with
  | nil => rfl
  | cons x rest ih =>
    have hx := hparse x (List.mem_cons_self _ _)
    have hrest := fun q hq => hparse q (List.mem_cons_of_mem _ hq)
    simp [List.filterMap_cons, hx, ih hrest]

/-! ## Claims -/

/-- C3: for every tool-result string containing N well-formed
`[CITATION:...]` markers (brace-free, bracket-free JSON bodies that
the JSON parser accepts) interleaved with bracket-free free text, the
marker extraction emits exactly N citation events in the left-to-right
order of the markers, and the display text after stripping is the free
text with zero marker substrings remaining. -/
theorem C3_marker_extraction (parse : Str → Option CitJson)
    (g0 : Str) (ps : List (Str × Str × CitJson))
    (hwf : WFCit g0 (ps.map fun x => (x.1, x.2.1)))
    (hparse : ∀ x ∈ ps, parse (citPayload x.1) = some x.2.2) :
    frEvents parse (citText g0 (ps.map fun x => (x.1, x.2.1))) =
      ps.map (fun x => StreamEvent.citation (.source x.2.2))
    ∧ (frEvents parse (citText g0 (ps.map fun x => (x.1, x.2.1)))).length
        = ps.length
    ∧ cleanText (citText g0 (ps.map fun x => (x.1, x.2.1)))
        = g0 ++ (ps.map fun x => x.2.1).flatten
    ∧ '[' ∉ cleanText (citText g0 (ps.map fun x => (x.1, x.2.1)))
    ∧ scanCit (cleanText (citText g0 (ps.map fun x => (x.1, x.2.1)))) = [] := by
  have hscan := scanCit_citText g0 (ps.map fun x => (x.1, x.2.1)) hwf
  have hdl := downloadScan_citText g0 (ps.map fun x => (x.1, x.2.1)) hwf
  have hlk := linkScan_citText g0 (ps.map fun x => (x.1, x.2.1)) hwf
  have hclean := cleanText_citText g0 (ps.map fun x => (x.1, x.2.1)) hwf
  have hflat : ((ps.map fun x => (x.1, x.2.1)).map fun p => p.2) =
      ps.map fun x => x.2.1 := by
    rw [List.map_map]; rfl
  have hpl : ((ps.map fun x => (x.1, x.2.1)).map fun p => citPayload p.1) =
      ps.map fun x => citPayload x.1 := by
    rw [List.map_map]; rfl
  have hnb : '[' ∉ cleanText (citText g0 (ps.map fun x => (x.1, x.2.1))) := by
    rw [hclean, hflat]
    exact fun hm => no_bracket_citText_gaps g0 _ hwf (by rw [hflat]; exact hm)
  have hfr : frEvents parse (citText g0 (ps.map fun x => (x.1, x.2.1))) =
      ps.map (fun x => StreamEvent.citation (.source x.2.2)) := by
    unfold frEvents
    rw [hscan, hdl, hlk, hpl, filterMap_parse_all parse ps hparse]
    simp [List.map_map]
  refine ⟨hfr, ?_, ?_, hnb, scanCit_of_no_bracket hnb⟩
  · rw [hfr]; simp
  · rw [hclean, hflat]

/-- Witness for C3 at a concrete two-marker input. -/
theorem C3_witness :
    frEvents titleParse (citText [] [(['a'], ['x']), (['c'], [])]) =
      [.citation (.source ⟨some (citPayload ['a']), none, none, none⟩),
        .citation (.source ⟨some (citPayload ['c']), none, none, none⟩)]
    ∧ cleanText (citText [] [(['a'], ['x']), (['c'], [])]) = ['x'] := by
  have h := C3_marker_extraction titleParse []
    [(['a'], ['x'], ⟨some (citPayload ['a']), none, none, none⟩),
      (['c'], [], ⟨some (citPayload ['c']), none, none, none⟩)]
    (by constructor
        · decide
        · decide)
    (by decide)
  exact ⟨by simpa using h.1, by simpa using h.2.2.1⟩

/-- C4: for a tool-result string with one citation marker whose JSON
payload the parser rejects between two accepted markers, extraction
returns exactly the 2 parsed citation events in order; the corrupt
marker is dropped and scanning continues past it. -/
theorem C4_malformed_citation_skipped (parse : Str → Option CitJson)
    (g0 g1 g2 g3 b1 b2 b3 : Str) (c1 c3 : CitJson)
    (hwf : WFCit g0 [(b1, g1), (b2, g2), (b3, g3)])
    (h1 : parse (citPayload b1) = some c1)
    (h2 : parse (citPayload b2) = none)
    (h3 : parse (citPayload b3) = some c3) :
    frEvents parse (citText g0 [(b1, g1), (b2, g2), (b3, g3)]) =
      [.citation (.source c1), .citation (.source c3)]
    ∧ (frEvents parse (citText g0 [(b1, g1), (b2, g2), (b3, g3)])).length
        = 2 := by
  have hscan := scanCit_citText g0 [(b1, g1), (b2, g2), (b3, g3)] hwf
  have hdl := downloadScan_citText g0 [(b1, g1), (b2, g2), (b3, g3)] hwf
  have hlk := linkScan_citText g0 [(b1, g1), (b2, g2), (b3, g3)] hwf
  have hfr : frEvents parse (citText g0 [(b1, g1), (b2, g2), (b3, g3)]) =
      [.citation (.source c1), .citation (.source c3)] := by
    unfold frEvents
    rw [hscan, hdl, hlk]
    simp [List.filterMap_cons, h1, h2, h3]
  exact ⟨hfr, by rw [hfr]; rfl⟩

/-- Witness for C4: payload body `b` is rejected, `a` and `c` parse. -/
theorem C4_witness :
    frEvents (rejectBody ['b'])
        (citText ['x'] [(['a'], ['y']), (['b'], ['z']), (['c'], [])]) =
      [.citation (.source ⟨some (citPayload ['a']), none, none, none⟩),
        .citation (.source ⟨some (citPayload ['c']), none, none, none⟩)] := by
  have h := C4_malformed_citation_skipped (rejectBody ['b'])
    ['x'] ['y'] ['z'] [] ['a'] ['b'] ['c']
    ⟨some (citPayload ['a']), none, none, none⟩
    ⟨some (citPayload ['c']), none, none, none⟩
    (by constructor
        · decide
        · decide)
    (by decide) (by decide) (by decide)
  exact h.1

/-- C1 counterexample: a lone final event (`partial === false`) with
text, no tool response, and an empty buffer (nothing streamed yet) is
skipped by the code - no content event is emitted for its text - while
the claimed rule (skip only when some partial content has already been
streamed) says it must not be skipped. -/
theorem C1_cex_skip_rule :
    skipCond evFinal 0 = true
    ∧ ¬ specSkipRule evFinal 0
    ∧ (processEvents noParse [evFinal]).2 = [] := by
  refine ⟨by decide, ?_, by decide⟩
  intro h
  exact absurd h.2.2 (by decide)

/-- C1 (amended): an event is skipped precisely when it carries no
tool response and either its `partial` flag is literally `false`, or
it has a content object, its `partial` flag is not `true`, and some
content has already been streamed for the turn.  Events carrying a
tool response are never skipped, whatever their flags, and on the
sequence [partial "Hello", partial " world", final-complete
"Hello world"] exactly the two partial content events are emitted. -/
theorem C1_skip_rule_corrected :
    (∀ (e : AgentEvent) (buf : Nat),
      skipCond e buf = true ↔
        hasFunctionResponse e = false ∧
          (e.pflag = some false ∨
            (e.content.isSome = true ∧ e.pflag ≠ some true ∧ 0 < buf)))
    ∧ (∀ (e : AgentEvent) (buf : Nat),
        hasFunctionResponse e = true → skipCond e buf = false)
    ∧ (processEvents noParse [evHello, evWorld, evFinal]).2 =
        [.content ['H', 'e', 'l', 'l', 'o'],
          .content [' ', 'w', 'o', 'r', 'l', 'd']] := by
  refine ⟨?_, ?_, by decide⟩
  · intro e buf
    simp [skipCond]
    tauto
  · intro e buf h
    simp [skipCond, h]

/-- Witness for C1: an event carrying a tool response is not skipped
even when final with a non-empty buffer. -/
theorem C1_witness : skipCond evToolResp 5 = false :=
  C1_skip_rule_corrected.2.1 evToolResp 5 (by decide)

/-- C5 counterexample: for the accepted partial event whose text is
`"Hi [DOWNLOAD_LINK:f]"`, the emitted content event carries the
cleaned text `"Hi "` but the full-response buffer receives the raw
text, so the buffer differs from the concatenation of the emitted
content texts and still contains a marker. -/
theorem C5_cex_buffer :
    (processEvents noParse [evMarkerText]).2 =
      [.content ['H', 'i', ' ']]
    ∧ (processEvents noParse [evMarkerText]).1 ≠ ['H', 'i', ' ']
    ∧ downloadScan (processEvents noParse [evMarkerText]).1 = [['f']] := by
  refine ⟨by decide, by decide, by decide⟩

/-- C5 (amended): for every text-bearing part accepted by the skip
rule, the driver strips markers from the part's text and, when the
stripped text is non-blank, emits a content event with the cleaned
fragment while appending the part's RAW text (not the cleaned
fragment) to the turn's full-response buffer; a part whose cleaned
text is blank contributes neither.  The buffer used for speech
synthesis may therefore retain marker substrings. -/
theorem C5_buffer_raw_corrected :
    (∀ (parse : Str → Option CitJson) (buf : Str) (evs : List StreamEvent)
      (t : Str), t ≠ [] → trim (cleanText t) ≠ [] →
        processPart parse (buf, evs) ⟨some t, none, none⟩ =
          (buf ++ t, evs ++ [.content (cleanText t)]))
    ∧ (∀ (parse : Str → Option CitJson) (buf : Str) (evs : List StreamEvent)
        (t : Str), trim (cleanText t) = [] →
          processPart parse (buf, evs) ⟨some t, none, none⟩ = (buf, evs))
    ∧ (∀ (parse : Str → Option CitJson) (buf : Str) (evs : List StreamEvent)
        (e : AgentEvent) (parts : List Part),
          skipCond e buf.length = false → e.content = some parts →
            processEvent parse (buf, evs) e =
              parts.foldl (processPart parse) (buf, evs)) := by
  refine ⟨?_, ?_, ?_⟩
  · intro parse buf evs t ht hct
    simp [processPart, ht, hct]
  · intro parse buf evs t hct
    by_cases ht : t = []
    · simp [processPart, ht]
    · simp [processPart, ht, hct]
  · intro parse buf evs e parts hskip hc
    simp [processEvent, hskip, hc]

/-- Witness for C5: the raw marker-bearing text goes to the buffer
while the cleaned text goes to the content event. -/
theorem C5_witness :
    processPart noParse ([], [])
        ⟨some (['H', 'i', ' '] ++ dlTag ++ ['f', ']']), none, none⟩ =
      (['H', 'i', ' '] ++ dlTag ++ ['f', ']'], [.content ['H', 'i', ' ']]) := by
  have h := C5_buffer_raw_corrected.1 noParse [] []
    (['H', 'i', ' '] ++ dlTag ++ ['f', ']']) (by decide) (by decide)
  simpa using h

theorem isTerminal_frEvents (parse : Str → Option CitJson) (r : Str)
    {ev : StreamEvent} (hm : ev ∈ frEvents parse r) :
    ev.isTerminal = false := by
  unfold frEvents at hm
  rcases List.mem_append.1 hm with hm | hm
  · rcases List.mem_append.1 hm with hm | hm
    · obtain ⟨x, _, rfl⟩ := List.mem_map.1 hm; rfl
    · obtain ⟨x, _, rfl⟩ := List.mem_map.1 hm; rfl
  · obtain ⟨x, _, rfl⟩ := List.mem_map.1 hm; rfl

theorem mem_processPart {parse : Str → Option CitJson}
    {acc : Str × List StreamEvent} {p : Part} {ev : StreamEvent}
    (hm : ev ∈ (processPart parse acc p).2) :
    ev ∈ acc.2 ∨ ev.isTerminal = false := by
  rcases acc with ⟨buf, evs⟩
  rcases p with ⟨t, fc, fr⟩
  have step1 : ∀ {a : Str × List StreamEvent},
      ev ∈ (match fc with
        | some n => (a.1, a.2 ++ [StreamEvent.toolCall n])
        | none => a).2 → ev ∈ a.2 ∨ ev.isTerminal = false := by
    intro a hma
    cases fc with
    | none => exact Or.inl hma
    | some n =>
      rcases List.mem_append.1 hma with hma | hma
      · exact Or.inl hma
      · simp at hma; subst hma; exact Or.inr rfl
  have step2 : ∀ {a : Str × List StreamEvent},
      ev ∈ (match fr with
        | some r => (a.1, a.2 ++ frEvents parse r)
        | none => a).2 → ev ∈ a.2 ∨ ev.isTerminal = false := by
    intro a hma
    cases fr with
    | none => exact Or.inl hma
    | some r =>
      rcases List.mem_append.1 hma with hma | hma
      · exact Or.inl hma
      · exact Or.inr (isTerminal_frEvents parse r hma)
  have compose : ∀ {a : Str × List StreamEvent},
      ev ∈ ((match fr with
        | some r => (a.1, a.2 ++ frEvents parse r)
        | none => a) :
          Str × List StreamEvent).2 →
      (ev ∈ a.2 → ev ∈ evs ∨ ev.isTerminal = false) →
      ev ∈ evs ∨ ev.isTerminal = false := by
    intro a hma hlift
    rcases step2 hma with hma | hterm
    · exact hlift hma
    · exact Or.inr hterm
  cases t with
  | none =>
    simp only [processPart] at hm
    exact compose hm fun hma => step1 (a := (buf, evs)) hma
  | some tt =>
    by_cases h1 : tt = []
    · simp only [processPart, h1, eq_self_iff_true, if_true] at hm
      exact compose hm fun hma => step1 (a := (buf, evs)) hma
    · by_cases h2 : trim (cleanText tt) = []
      · simp only [processPart, h1, h2, eq_self_iff_true, if_true,
          if_false, ite_false, ite_true] at hm
        exact compose hm fun hma => step1 (a := (buf, evs)) hma
      · simp only [processPart, h1, h2, if_false, ite_false] at hm
        rcases List.mem_append.1 hm with hm | hm
        · exact compose hm fun hma => step1 (a := (buf, evs)) hma
        · simp at hm; subst hm; exact Or.inr rfl

theorem mem_foldl_processPart {parse : Str → Option CitJson}
    (parts : List Part) (acc : Str × List StreamEvent) {ev : StreamEvent}
    (hm : ev ∈ (parts.foldl (processPart parse) acc).2) :
    ev ∈ acc.2 ∨ ev.isTerminal = false := by
  induction parts generalizing acc with
  | nil => exact Or.inl hm
  | cons p rest ih =>
    rcases ih (processPart parse acc p) hm with hma | hterm
    · exact mem_processPart hma
    · exact Or.inr hterm

theorem mem_processEvent {parse : Str → Option CitJson}
    (acc : Str × List StreamEvent) (e : AgentEvent) {ev : StreamEvent}
    (hm : ev ∈ (processEvent parse acc e).2) :
    ev ∈ acc.2 ∨ ev.isTerminal = false := by
  unfold processEvent at hm
  by_cases hs : skipCond e acc.1.length = true
  · rw [if_pos hs] at hm; exact Or.inl hm
  · rw [if_neg hs] at hm
    cases hc : e.content with
    | none => rw [hc] at hm; exact Or.inl hm
    | some parts => rw [hc] at hm; exact mem_foldl_processPart parts acc hm

theorem mem_processEvents {parse : Str → Option CitJson}
    (events : List AgentEvent) {ev : StreamEvent}
    (hm : ev ∈ (processEvents parse events).2) :
    ev.isTerminal = false := by
  suffices h : ∀ (evts : List AgentEvent) (acc : Str × List StreamEvent),
      ev ∈ (evts.foldl (processEvent parse) acc).2 →
        ev ∈ acc.2 ∨ ev.isTerminal = false by
    rcases h events ([], []) hm with hma | hterm
    · simp at hma
    · exact hterm
  intro evts
  induction evts with
  | nil => intro acc hma; exact Or.inl hma
  | cons e rest ih =>
    intro acc hma
    rcases ih (processEvent parse acc e) hma with hma | hterm
    · exact mem_processEvent acc e hma
    · exact Or.inr hterm

theorem mem_audioEvents {stripMD : Str → Str} {tts : Str → Option Str}
    {buf : Str} {ev : StreamEvent} (hm : ev ∈ audioEvents stripMD tts buf) :
    ev.isTerminal = false := by
  unfold audioEvents at hm
  suffices h : ∀ (sentences : List Str) (acc : List StreamEvent),
      ev ∈ sentences.foldl (fun acc sentence =>
        if trim sentence = [] then acc
        else
          let cleanSentence := stripMD sentence
          if cleanSentence = [] then acc
          else
            match tts cleanSentence with
            | some audio => acc ++ [.audio audio]
            | none => acc) acc →
        ev ∈ acc ∨ ev.isTerminal = false by
    rcases h _ [] hm with hma | hterm
    · simp at hma
    · exact hterm
  intro sentences
  induction sentences with
  | nil => intro acc hma; exact Or.inl hma
  | cons s rest ih =>
    intro acc hma
    rcases ih _ hma with hma | hterm
    · have hma2 : ev ∈ (if trim s = [] then acc
          else if stripMD s = [] then acc
          else
            match tts (stripMD s) with
            | some audio => acc ++ [StreamEvent.audio audio]
            | none => acc) := hma
      by_cases h1 : trim s = []
      · rw [if_pos h1] at hma2; exact Or.inl hma2
      · rw [if_neg h1] at hma2
        by_cases h2 : stripMD s = []
        · rw [if_pos h2] at hma2; exact Or.inl hma2
        · rw [if_neg h2] at hma2
          cases htts : tts (stripMD s) with
          | none => rw [htts] at hma2; exact Or.inl hma2
          | some audio =>
            rw [htts] at hma2
            rcases List.mem_append.1 hma2 with hma2 | hma2
            · exact Or.inl hma2
            · simp at hma2; subst hma2; exact Or.inr rfl
    · exact Or.inr hterm

theorem mem_turnEvents {parse : Str → Option CitJson} {stripMD : Str → Str}
    {tts : Str → Option Str} {sid : Str} {voice : Option Str}
    {events : List AgentEvent} {ev : StreamEvent}
    (hm : ev ∈ turnEvents parse stripMD tts sid voice events) :
    ev.isTerminal = false := by
  unfold turnEvents at hm
  rcases List.mem_cons.1 hm with hm | hm
  · subst hm; rfl
  · rcases List.mem_append.1 hm with hm | hm
    · exact mem_processEvents events hm
    · cases voice with
      | none => simp at hm
      | some v =>
        have hm2 : ev ∈ (if v ≠ [] ∧ trim (processEvents parse events).1 ≠ []
            then audioEvents stripMD tts (processEvents parse events).1
            else []) := hm
        by_cases hv : v ≠ [] ∧ trim (processEvents parse events).1 ≠ []
        · rw [if_pos hv] at hm2
          exact mem_audioEvents hm2
        · rw [if_neg hv] at hm2; simp at hm2

/-- C2: whatever the agent, tool or speech calls do - including an
uncaught exception thrown at any point after the request body is
parsed, modelled as truncating the emission sequence after `k` events -
the stream written by the `POST` handler ends with exactly one
terminal event (`done` on success, `error` on exception), no event
follows the terminal event, and the stream is closed. -/
theorem C2_terminal_event (parse : Str → Option CitJson)
    (stripMD : Str → Str) (tts : Str → Option Str) (sid : Str)
    (voice : Option Str) (events : List AgentEvent)
    (crash : Option (Nat × Str)) :
    (postWritten parse stripMD tts sid voice events crash).2 = true
    ∧ ∃ (w : List StreamEvent) (t : StreamEvent),
        (postWritten parse stripMD tts sid voice events crash).1 = w ++ [t]
        ∧ t.isTerminal = true
        ∧ ∀ ev ∈ w, ev.isTerminal = false := by
  cases crash with
  | none =>
    refine ⟨rfl, turnEvents parse stripMD tts sid voice events, .done,
      rfl, rfl, ?_⟩
    intro ev hm
    exact mem_turnEvents hm
  | some km =>
    refine ⟨rfl, (turnEvents parse stripMD tts sid voice events).take km.1,
      .error km.2, rfl, rfl, ?_⟩
    intro ev hm
    exact mem_turnEvents (List.take_subset _ _ hm)

theorem lookupKey_setKey_self {A : Type} (l : List (Str × A)) (k : Str)
    (v : A) : lookupKey (setKey l k v) k = some v := by
  induction l with
  | nil => simp [setKey, lookupKey]
  | cons p rest ih =>
    rcases p with ⟨k0, v0⟩
    by_cases h0 : k0 = k
    · simp [setKey, h0, lookupKey]
    · simp [setKey, h0, lookupKey, ih]

theorem lookupKey_setKey_other {A : Type} (l : List (Str × A)) (k k' : Str)
    (v : A) (h : k' ≠ k) :
    lookupKey (setKey l k v) k' = lookupKey l k' := by
  have hne : ¬ k = k' := Ne.symm h
  induction l with
  | nil => simp [setKey, lookupKey, hne]
  | cons p rest ih =>
    rcases p with ⟨k0, v0⟩
    by_cases h0 : k0 = k
    · subst h0
      simp [setKey, lookupKey, hne]
    · simp [setKey, h0, lookupKey, ih]

theorem lookupKey_eraseKey_self {A : Type} (l : List (Str × A)) (k : Str) :
    lookupKey (eraseKey l k) k = none := by
  induction l with
  | nil => rfl
  | cons p rest ih =>
    rcases p with ⟨k0, v0⟩
    by_cases h0 : k0 = k
    · simpa [eraseKey, h0] using ih
    · simpa [eraseKey, lookupKey, h0] using ih

theorem lookupKey_eraseKey_other {A : Type} (l : List (Str × A)) (k k' : Str)
    (h : k' ≠ k) : lookupKey (eraseKey l k) k' = lookupKey l k' := by
  induction l with
  | nil => rfl
  | cons p rest ih =>
    rcases p with ⟨k0, v0⟩
    by_cases h0 : k0 = k
    · subst h0
      have : ¬ k0 = k' := Ne.symm h
      simpa [eraseKey, lookupKey, this] using ih
    · by_cases h1 : k0 = k'
      · subst h1
        simp [eraseKey, lookupKey, h0]
      · simpa [eraseKey, lookupKey, h0, h1] using ih

theorem mem_snd_setKey {A : Type} (l : List (Str × A)) (k : Str) (v : A) :
    v ∈ (setKey l k v).map (fun p => p.2) := by
  induction l with
  | nil => exact List.mem_singleton.2 rfl
  | cons p rest ih =>
    rcases p with ⟨k0, v0⟩
    by_cases h0 : k0 = k
    · rw [show setKey ((k0, v0) :: rest) k v = (k, v) :: rest by
        simp [setKey, h0]]
      exact List.mem_cons_self _ _

    · rw [show setKey ((k0, v0) :: rest) k v = (k0, v0) :: setKey rest k v by
        simp [setKey, h0]]
      exact List.mem_cons_of_mem _ ih

theorem mem_snd_of_lookupKey {A : Type} {l : List (Str × A)} {k : Str}
    {v : A} (h : lookupKey l k = some v) : v ∈ l.map (fun p => p.2) := by
  induction l with
  | nil => exact absurd h (by simp [lookupKey])
  | cons p rest ih =>
    rcases p with ⟨k0, v0⟩
    by_cases h0 : k0 = k
    · rw [show lookupKey ((k0, v0) :: rest) k = some v0 by
        simp [lookupKey, h0]] at h
      rw [List.map_cons]
      exact (Option.some.injEq _ _ ▸ h) ▸ List.mem_cons_self _ _
    · rw [show lookupKey ((k0, v0) :: rest) k = lookupKey rest k by
        simp [lookupKey, h0]] at h
      rw [List.map_cons]
      exact List.mem_cons_of_mem _ (ih h)

theorem eraseKey_of_not_mem {A : Type} (l : List (Str × A)) (k : Str)
    (h : k ∉ l.map (fun p => p.1)) : eraseKey l k = l := by
  induction l with
  | nil => rfl
  | cons p rest ih =>
    rcases p with ⟨k0, v0⟩
    rw [List.map_cons, List.mem_cons] at h
    push_neg at h
    have h1 : ¬ k0 = k := fun e => h.1 e.symm
    rw [show eraseKey ((k0, v0) :: rest) k = (k0, v0) :: eraseKey rest k by
      simp [eraseKey, h1]]
    rw [ih h.2]

theorem moveLoop_false_dst_other (src dst : SessionDocs) (ids : List Str)
    (k : Str) (hk : k ∉ ids) :
    lookupKey (moveLoop false src dst ids).2.1 k = lookupKey dst k := by
  induction ids generalizing src dst with
  | nil => rfl
  | cons id rest ih =>
    have hkr : k ∉ rest := fun hm => hk (List.mem_cons_of_mem _ hm)
    have hki : k ≠ id := fun e => hk (e ▸ List.mem_cons_self _ _)
    cases hl : lookupKey src id with
    | none => simpa [moveLoop, hl] using ih src dst hkr
    | some it =>
      simp [moveLoop, hl]
      rw [ih (eraseKey src id) (setKey dst id it) hkr,
        lookupKey_setKey_other _ _ _ _ hki]

theorem moveLoop_false_spec (src : SessionDocs)
    (hnd : (src.map (fun p => p.1)).Nodup) (dst : SessionDocs) :
    (moveLoop false src dst (src.map (fun p => p.1))).1 = []
    ∧ (moveLoop false src dst (src.map (fun p => p.1))).2.2 = src.length
    ∧ ∀ p ∈ src,
        lookupKey (moveLoop false src dst (src.map (fun p => p.1))).2.1 p.1 =
          some p.2 := by
  induction src generalizing dst with
  | nil =>
    refine ⟨rfl, rfl, ?_⟩
    intro p hp
    exact absurd hp (List.not_mem_nil p)
  | cons q rest ih =>
    rcases q with ⟨k, v⟩
    simp only [List.map_cons, List.nodup_cons] at hnd
    obtain ⟨hk, hnd'⟩ := hnd
    have hl : lookupKey ((k, v) :: rest) k = some v := by simp [lookupKey]
    have her : eraseKey ((k, v) :: rest) k = rest := by
      have h2 : eraseKey rest k = rest := eraseKey_of_not_mem rest k hk
      have h3 : eraseKey ((k, v) :: rest) k = eraseKey rest k := by
        unfold eraseKey
        rw [List.filter_cons_of_neg]
        simp
      rw [h3, h2]
    obtain ⟨ih1, ih2, ih3⟩ := ih hnd' (setKey dst k v)
    refine ⟨?_, ?_, ?_⟩
    · simpa [moveLoop, hl, her] using ih1
    · simp [moveLoop, hl, her, ih2]
    · intro p hp
      rcases List.mem_cons.1 hp with hp | hp
      · subst hp
        simp [moveLoop, hl, her]
        rw [moveLoop_false_dst_other rest (setKey dst k v) _ k hk]
        exact lookupKey_setKey_self dst k v
      · have h3 := ih3 p hp
        simpa [moveLoop, hl, her] using h3

theorem moveLoop_true_spec (src : SessionDocs)
    (hnd : (src.map (fun p => p.1)).Nodup) :
    (moveLoop true src src (src.map (fun p => p.1))).1 = []
    ∧ (moveLoop true src src (src.map (fun p => p.1))).2.2 = src.length := by
  induction src with
  | nil => exact ⟨rfl, rfl⟩
  | cons q rest ih =>
    rcases q with ⟨k, v⟩
    simp only [List.map_cons, List.nodup_cons] at hnd
    obtain ⟨hk, hnd'⟩ := hnd
    have hl : lookupKey ((k, v) :: rest) k = some v := by simp [lookupKey]
    have hset : setKey ((k, v) :: rest) k v = (k, v) :: rest := by
      simp [setKey]
    have her : eraseKey ((k, v) :: rest) k = rest := by
      have h2 : eraseKey rest k = rest := eraseKey_of_not_mem rest k hk
      have h3 : eraseKey ((k, v) :: rest) k = eraseKey rest k := by
        unfold eraseKey
        rw [List.filter_cons_of_neg]
        simp
      rw [h3, h2]
    obtain ⟨ih1, ih2⟩ := ih hnd'
    constructor
    · simpa [moveLoop, hl, hset, her] using ih1
    · simp [moveLoop, hl, hset, her, ih2]

theorem getDocumentNames_resolved (cur : Option Str) (store : DocumentStore)
    (sid : Option Str) (s : Str) (h : jsOrStr sid cur = some s) :
    getDocumentNames cur store sid =
      ((lookupKey store s).getD []).map (fun d => d.2.name) := by
  unfold getDocumentNames
  rw [h]

theorem addDocument_eq (store : DocumentStore) (s d nm ct ty : Str) :
    addDocument store s d nm ct ty =
      setKey store s
        (setKey ((lookupKey store s).getD []) d ⟨nm, ct, ty⟩) := rfl

/-- C6: session isolation of the document store - adding a document
under session `s1` leaves the names listed for any other session `s2`
unchanged (in particular `[]` over an empty store), while the listing
for `s1` contains the added name. -/
theorem C6_session_isolation (store : DocumentStore) (cur : Option Str)
    (s1 s2 d1 nm ct ty : Str) (h12 : s1 ≠ s2) (h1 : s1 ≠ []) (h2 : s2 ≠ []) :
    getDocumentNames cur (addDocument store s1 d1 nm ct ty) (some s2) =
      getDocumentNames cur store (some s2)
    ∧ nm ∈ getDocumentNames cur (addDocument store s1 d1 nm ct ty) (some s1)
    ∧ getDocumentNames cur (addDocument [] s1 d1 nm ct ty) (some s2) = [] := by
  have hjs1 : jsOrStr (some s1) cur = some s1 := by simp [jsOrStr, h1]
  have hjs2 : jsOrStr (some s2) cur = some s2 := by simp [jsOrStr, h2]
  have h21 : s2 ≠ s1 := Ne.symm h12
  refine ⟨?_, ?_, ?_⟩
  · rw [getDocumentNames_resolved cur _ _ _ hjs2,
      getDocumentNames_resolved cur _ _ _ hjs2, addDocument_eq,
      lookupKey_setKey_other store s1 s2 _ h21]
  · rw [getDocumentNames_resolved cur _ _ _ hjs1, addDocument_eq,
      lookupKey_setKey_self, Option.getD_some]
    rw [show (fun d : Str × DocumentItem => d.2.name) =
      (fun d : DocumentItem => d.name) ∘ (fun p : Str × DocumentItem => p.2)
      from rfl, ← List.map_map]
    exact List.mem_map_of_mem _
      (mem_snd_setKey ((lookupKey store s1).getD []) d1 ⟨nm, ct, ty⟩)
  · rw [getDocumentNames_resolved cur _ _ _ hjs2, addDocument_eq,
      lookupKey_setKey_other _ s1 s2 _ h21]
    rfl

/-- Witness for C6 at a concrete store and distinct sessions. -/
theorem C6_witness :
    ['n'] ∈ getDocumentNames none
      (addDocument storeS1 ['a'] ['d'] ['n'] ['c'] ['t']) (some ['a']) :=
  (C6_session_isolation storeS1 none ['a'] ['s'] ['d'] ['n'] ['c'] ['t']
    (by decide) (by decide) (by decide)).2.1

/-- C7: moving all documents between two distinct sessions empties the
source (whose store entry is deleted), reports `moved_count` equal to
the number of documents the source held, and every moved document is
listed under the destination. -/
theorem C7_move_all (store : DocumentStore) (fromS toS : Str)
    (docs : SessionDocs) (hne : fromS ≠ toS) (hf : fromS ≠ [])
    (ht : toS ≠ []) (hlk : lookupKey store fromS = some docs)
    (hd : docs ≠ []) (hnd : (docs.map (fun p => p.1)).Nodup) :
    (moveDocumentsPost store fromS toS none).2 = some (true, docs.length)
    ∧ lookupKey (moveDocumentsPost store fromS toS none).1 fromS = none
    ∧ getDocumentNames none (moveDocumentsPost store fromS toS none).1
        (some fromS) = []
    ∧ ∀ p ∈ docs, p.2.name ∈
        getDocumentNames none (moveDocumentsPost store fromS toS none).1
          (some toS) := by
  obtain ⟨hr1, hr2, hr3⟩ :=
    moveLoop_false_spec docs hnd ((lookupKey store toS).getD [])
  have hcond : ¬ (fromS = [] ∨ toS = []) := by tauto
  have heq : moveDocumentsPost store fromS toS none =
      (eraseKey (setKey (setKey store toS
          (moveLoop false docs ((lookupKey store toS).getD [])
            (docs.map (fun p => p.1))).2.1) fromS
          (moveLoop false docs ((lookupKey store toS).getD [])
            (docs.map (fun p => p.1))).1) fromS,
        some (true, (moveLoop false docs ((lookupKey store toS).getD [])
          (docs.map (fun p => p.1))).2.2)) := by
    unfold moveDocumentsPost
    rw [if_neg hcond, hlk]
    simp [decide_eq_false hne, hr1]
  have hjsf : jsOrStr (some fromS) none = some fromS := by simp [jsOrStr, hf]
  have hjst : jsOrStr (some toS) none = some toS := by simp [jsOrStr, ht]
  have hlf : lookupKey (moveDocumentsPost store fromS toS none).1 fromS =
      none := by
    rw [heq]
    exact lookupKey_eraseKey_self _ fromS
  have hlt : lookupKey (moveDocumentsPost store fromS toS none).1 toS =
      some (moveLoop false docs ((lookupKey store toS).getD [])
        (docs.map (fun p => p.1))).2.1 := by
    rw [heq]
    show lookupKey (eraseKey _ _) _ = _
    rw [lookupKey_eraseKey_other _ fromS toS (Ne.symm hne),
      lookupKey_setKey_other _ fromS toS _ (Ne.symm hne),
      lookupKey_setKey_self]
  refine ⟨?_, hlf, ?_, ?_⟩
  · rw [heq, hr2]
  · rw [getDocumentNames_resolved none _ _ _ hjsf, hlf]
    rfl
  · intro p hp
    rw [getDocumentNames_resolved none _ _ _ hjst, hlt, Option.getD_some]
    rw [show (fun d : Str × DocumentItem => d.2.name) =
      (fun d : DocumentItem => d.name) ∘ (fun p : Str × DocumentItem => p.2)
      from rfl, ← List.map_map]
    exact List.mem_map_of_mem _ (mem_snd_of_lookupKey (hr3 p hp))

/-- Witness for C7 at the concrete one-document store. -/
theorem C7_witness :
    (moveDocumentsPost storeS1 ['s'] ['u'] none).2 = some (true, 1)
    ∧ lookupKey (moveDocumentsPost storeS1 ['s'] ['u'] none).1 ['s'] =
        none := by
  have h := C7_move_all storeS1 ['s'] ['u'] [(['d'], ⟨['n'], ['c'], ['t']⟩)]
    (by decide) (by decide) (by decide) (by decide) (by decide) (by decide)
  exact ⟨h.1, h.2.1⟩

/-- C10: a self-move (`from_session = to_session = s`, docIds omitted)
destroys the session's documents: the per-session entry is removed
from the store entirely, while the response still reports
`success: true` with `moved_count` equal to the number of documents
the session held. -/
theorem C10_self_move_destroys (store : DocumentStore) (s : Str)
    (docs : SessionDocs) (hs : s ≠ [])
    (hlk : lookupKey store s = some docs) (hd : docs ≠ [])
    (hnd : (docs.map (fun p => p.1)).Nodup) :
    (moveDocumentsPost store s s none).2 = some (true, docs.length)
    ∧ lookupKey (moveDocumentsPost store s s none).1 s = none
    ∧ getDocumentNames none (moveDocumentsPost store s s none).1 (some s)
        = [] := by
  obtain ⟨hr1, hr2⟩ := moveLoop_true_spec docs hnd
  have hcond : ¬ (s = [] ∨ s = []) := by tauto
  have heq : moveDocumentsPost store s s none =
      (eraseKey (setKey store s
          (moveLoop true docs docs (docs.map (fun p => p.1))).1) s,
        some (true,
          (moveLoop true docs docs (docs.map (fun p => p.1))).2.2)) := by
    unfold moveDocumentsPost
    rw [if_neg hcond, hlk]
    simp [hr1]
  have hjs : jsOrStr (some s) none = some s := by simp [jsOrStr, hs]
  have hlf : lookupKey (moveDocumentsPost store s s none).1 s = none := by
    rw [heq]
    exact lookupKey_eraseKey_self _ s
  refine ⟨?_, hlf, ?_⟩
  · rw [heq, hr2]
  · rw [getDocumentNames_resolved none _ _ _ hjs, hlf]
    rfl

/-- Witness for C10: the self-move on the concrete one-document store
wipes the session while reporting one moved document. -/
theorem C10_witness :
    (moveDocumentsPost storeS1 ['s'] ['s'] none).2 = some (true, 1)
    ∧ lookupKey (moveDocumentsPost storeS1 ['s'] ['s'] none).1 ['s'] =
        none := by
  have h := C10_self_move_destroys storeS1 ['s']
    [(['d'], ⟨['n'], ['c'], ['t']⟩)]
    (by decide) (by decide) (by decide) (by decide)
  exact ⟨h.1, h.2.1⟩

/-- C8: while `isAiSpeaking` is true, every final-transcript callback
is rejected - `handleFinalSpeech` returns `none`, submitting no user
turn and queueing nothing - for every combination of the input-mode
and session-state flags; the same holds while audio is playing. -/
theorem C8_reject_while_speaking :
    (∀ (ap : Bool) (im : InputMode) (ss : SessionState) (t : Str),
      handleFinalSpeech ⟨true, ap, im, ss⟩ t = none)
    ∧ (∀ (sp : Bool) (im : InputMode) (ss : SessionState) (t : Str),
      handleFinalSpeech ⟨sp, true, im, ss⟩ t = none) := by
  constructor
  · intro ap im ss t
    simp [handleFinalSpeech, shouldAcceptSpeech]
  · intro sp im ss t
    simp [handleFinalSpeech, shouldAcceptSpeech]

theorem aqStep_preserve (s : AQState) (a : AQAct) (hp : s.isPlaying = true)
    (hr : s.receiving = true) (hm1 : a ≠ AQAct.markStreamComplete)
    (hm2 : a ≠ AQAct.stop) :
    (aqStep s a).isPlaying = true ∧ (aqStep s a).receiving = true := by
  rcases s with ⟨q, ip, iproc, recv, tp, cur⟩
  simp only at hp hr
  subst hp
  subst hr
  cases a with
  | enqueue c => cases iproc <;> cases q <;> simp [aqStep, playNext]
  | decodeFail c => simp [aqStep]
  | sourceEnded => cases cur <;> cases q <;> simp [aqStep, playNext]
  | timerFire => cases tp <;> cases q <;> simp [aqStep, playNext]
  | markStreamComplete => exact absurd rfl hm1
  | stop => exact absurd rfl hm2

/-- C9: if `markStreamComplete` is never called (and `stop` is not
called), `isPlaying` never flips to false - whatever sequence of
enqueues, decode failures, playback endings and grace-timer firings
occurs, including the queue draining; and a transition flips
`isPlaying` from true to false only when the armed grace timer fires
with the queue empty and `receiving` false, or on `stop`. -/
theorem C9_isPlaying_latch :
    (∀ (s : AQState) (acts : List AQAct),
      s.isPlaying = true → s.receiving = true →
      (∀ a ∈ acts, a ≠ AQAct.markStreamComplete ∧ a ≠ AQAct.stop) →
      (acts.foldl aqStep s).isPlaying = true)
    ∧ (∀ (s : AQState) (a : AQAct),
      s.isPlaying = true → (aqStep s a).isPlaying = false →
      (a = AQAct.timerFire ∧ s.timerPending = true ∧ s.queue = [] ∧
        s.receiving = false) ∨ a = AQAct.stop) := by
  constructor
  · intro s acts
    induction acts generalizing s with
    | nil => intro hp _ _; exact hp
    | cons a rest ih =>
      intro hp hr hacts
      obtain ⟨hm1, hm2⟩ := hacts a (List.mem_cons_self _ _)
      obtain ⟨hp', hr'⟩ := aqStep_preserve s a hp hr hm1 hm2
      exact ih (aqStep s a) hp' hr'
        (fun b hb => hacts b (List.mem_cons_of_mem _ hb))
  · intro s a hp hfalse
    rcases s with ⟨q, ip, iproc, recv, tp, cur⟩
    simp only at hp
    subst hp
    cases a with
    | enqueue c =>
      exfalso
      cases iproc <;> cases q <;> simp [aqStep, playNext] at hfalse
    | decodeFail c =>
      exfalso
      simp [aqStep] at hfalse
    | sourceEnded =>
      exfalso
      cases cur <;> cases q <;> simp [aqStep, playNext] at hfalse
    | timerFire =>
      cases tp with
      | false => exact absurd hfalse (by simp [aqStep])
      | true =>
        cases q with
        | nil =>
          cases recv with
          | false => exact Or.inl ⟨rfl, rfl, rfl, rfl⟩
          | true => exact absurd hfalse (by simp [aqStep, playNext])
        | cons b rest =>
          exact absurd hfalse (by simp [aqStep, playNext])
    | markStreamComplete =>
      exfalso
      simp [aqStep] at hfalse
    | stop => exact Or.inr rfl

/-- Witness for C9: with the stream never marked complete, the queue
drained and the grace timer firing, playback still reports playing. -/
theorem C9_witness :
    ((([AQAct.timerFire, AQAct.sourceEnded,
        AQAct.enqueue ['x']]).foldl aqStep
      ⟨[], true, false, true, true, none⟩).isPlaying = true) :=
  C9_isPlaying_latch.1 ⟨[], true, false, true, true, none⟩
    [AQAct.timerFire, AQAct.sourceEnded, AQAct.enqueue ['x']]
    (by decide) (by decide) (by decide)

end Moot
